import Mathlib

/-!
A verification development for the `llparser` combinator library
(`src/include/llparser/llparser.h`).  The C++ header is embedded shallowly:
`ParseResult` and its `merge` operator become a Lean structure and function,
and every parser node (an `LLParser` with its parse lambda) becomes a Lean
function from the input text and a start offset to a `ParseResult`.
`std::string` is modelled as `List Char` and `size_t` as `Nat`.
-/

namespace LLParser

/-- Input text and string values (`std::string`), modelled as lists of characters. -/
abbrev Str := List Char

/-- The dynamic value (`std::any`) stored in a `ParseResult`.  The library stores:
nothing (a default-constructed `std::any`, as in the `Failure` factories), a string
(from the `string` and `regex` parsers), the `nullptr` returned by `eof`, or a
`std::vector` of collected child values (from `sequence`, `times`, `many`).  User
`map` functions transform values within this universe. -/
inductive Value where
  | empty : Value
  | str : Str → Value
  | null : Value
  | list : List Value → Value

/-- The `ParseResult::Status` enumeration. -/
inductive Status where
  | success : Status
  | failure : Status
deriving DecidableEq, Repr

/-- The `ParseResult` struct: status, furthest index, dynamic value, expectations. -/
structure ParseResult where
  status : Status
  index : Nat
  value : Value
  expectations : List Str

/-- The factory `ParseResult::Success(index, value)`: success with no expectations. -/
def ParseResult.Success (index : Nat) (value : Value) : ParseResult :=
  ⟨.success, index, value, []⟩

/-- The factory `ParseResult::Failure(index, expectation)`: failure with an empty
`std::any` value and a single expectation string. -/
def ParseResult.Failure1 (index : Nat) (expectation : Str) : ParseResult :=
  ⟨.failure, index, .empty, [expectation]⟩

/-- The factory `ParseResult::Failure(index)`: failure with no expectations. -/
def ParseResult.Failure0 (index : Nat) : ParseResult :=
  ⟨.failure, index, .empty, []⟩

/-- Appending to the accumulated vector in the success branch of `ParseResult::merge`
(`std::any_cast<std::vector<ValueType>&>(value)` followed by `emplace_back`).  On a
value that does not hold a vector the C++ `any_cast` would throw; every merge in the
library is performed on a result that holds a vector. -/
def Value.push : Value → Value → Value
  | .list vs, v => .list (vs ++ [v])
  | w, _ => w

/-- The `ParseResult::merge(other)` operator, transcribed branch by branch from the
source: equal statuses and success advance the index and append `other.value` to the
accumulated vector; equal statuses and failure apply the furthest-failure rule; on
differing statuses `self` is overwritten wholesale by `other`. -/
def ParseResult.merge (self other : ParseResult) : ParseResult :=
  if self.status = other.status then
    if self.status = .success then
      { self with index := other.index, value := self.value.push other.value }
    else if other.index > self.index then
      { self with index := other.index, expectations := other.expectations }
    else if other.index = self.index then
      { self with expectations := self.expectations ++ other.expectations }
    else
      self
  else
    other

/-- A parser node: the C++ `LLParser` is an attachment plus a parse function from
`(text, start)` to `ParseResult`; in the shallow embedding a node is the function
obtained by closing its parse lambda over its attachment. -/
abbrev ParserT := Str → Nat → ParseResult

/-! ## Primitive parsers -/

/-- ASCII lower-casing as performed by `std::tolower` in the default locale:
`A`–`Z` map to `a`–`z`, everything else is unchanged. -/
def toLowerChar (c : Char) : Char :=
  if 'A' ≤ c ∧ c ≤ 'Z' then Char.ofNat (c.toNat + 32) else c

/-- The case-insensitive comparison in `LLParser::string`:
`std::equal(literal.begin(), literal.end(), begin, begin + min(len, remaining), pred)`
with `pred` comparing `tolower` of both characters.  The four-iterator form first
requires the two ranges to have equal length. -/
def eqCaseInsensitive (a b : Str) : Bool :=
  a.length == b.length && (a.zip b).all fun p => toLowerChar p.1 == toLowerChar p.2

/-- The `LLParser::string` factory (the `literal` parser).  The attachment is the
literal; the parse lambda compares the literal against
`text.substr(start, min(literal.length(), text.length() - start))` — here
`(text.drop start).take lit.length`, since `List.take` clamps — either exactly
(`case_sensitive`) or up to ASCII case, succeeds with the matched input substring and
index `start + lit.length`, and otherwise fails at `start` expecting the literal. -/
def string (lit : Str) (caseSensitive : Bool) : ParserT := fun text start =>
  let candidate := (text.drop start).take lit.length
  let isEquivalent := if caseSensitive then candidate == lit else eqCaseInsensitive lit candidate
  if isEquivalent then
    ParseResult.Success (start + lit.length) (.str candidate)
  else
    ParseResult.Failure1 start lit

/-- The `LLParser::regex` factory.  The compiled `std::regex` — the pattern wrapped as
`^(?:pattern)` and searched over the range `[text.begin() + start, text.end())` — is an
external collaborator of the library (spec §1); it is abstracted as `engine`, applied
to the suffix of the text at `start`.  Because of the `^` anchor a match can only begin
at the start of the searched range, never later in the text.  `engine input = some
(n, g)` models a match whose group 0 has length `n` with requested capture-group text
`g`; `none` models no match.  On a match the parser succeeds at `start + n` with value
`g`; otherwise it fails at `start` expecting the raw pattern string. -/
def regex (pattern : Str) (engine : Str → Option (Nat × Str)) : ParserT := fun text start =>
  match engine (text.drop start) with
  | some (n, g) => ParseResult.Success (start + n) (.str g)
  | none => ParseResult.Failure1 start pattern

/-- The `LLParser::eof` factory: fails at `start` expecting `"EOF"` while
`start < text.length`, succeeds with a `nullptr` value otherwise. -/
def eof : ParserT := fun text start =>
  if start < text.length then ParseResult.Failure1 start ("EOF".toList)
  else ParseResult.Success start .null

/-- The `LLParser::lazy` factory with an assigned target: the node dereferences its
pointer-to-pointer attachment and delegates to the target parser.  (Lean terms are
acyclic, so this models exactly the supported use: the pointee is assigned to an
already-constructed parser before any invocation.) -/
def lazy (target : ParserT) : ParserT := fun text start => target text start

/-- Greedy one-or-more matching of a character class: the behaviour of the anchored
regexes `^(?:\s+)` and `^(?:\d+)` used by `whitespaces` and the test grammars. -/
def greedyPlus (pred : Char → Bool) (input : Str) : Option (Nat × Str) :=
  let m := input.takeWhile pred
  if m.isEmpty then none else some (m.length, m)

/-- Greedy zero-or-more matching of a character class: the behaviour of the anchored
regex `^(?:\s*)` used by `optional_whitespaces`. -/
def greedyStar (pred : Char → Bool) (input : Str) : Option (Nat × Str) :=
  let m := input.takeWhile pred
  some (m.length, m)

/-- The character class `\s` of the embedded regex engine (ECMAScript whitespace,
restricted to the ASCII repertoire the tests exercise). -/
def isSpaceChar (c : Char) : Bool :=
  c == ' ' || c == '\t' || c == '\n' || c == '\x0b' || c == '\x0c' || c == '\r'

/-- The `LLParser::whitespaces` factory: `regex("\s+")`. -/
def whitespaces : ParserT := regex ("\\s+".toList) (greedyPlus isSpaceChar)

/-- The `LLParser::optional_whitespaces` factory: `regex("\s*")`. -/
def optional_whitespaces : ParserT := regex ("\\s*".toList) (greedyStar isSpaceChar)

/-- The parser `regex("\d+")` from scenario S4, with its engine instantiated to
greedy digit matching. -/
def digits : ParserT := regex ("\\d+".toList) (greedyPlus Char.isDigit)

/-! ## Combinators -/

/-- The loop of `LLParser::sequence`: starting from the accumulating result, each
child is parsed at the current `result.index` and merged in; the loop returns early
as soon as the merged result is no longer a success. -/
def seqGo (text : Str) : List ParserT → ParseResult → ParseResult
  | [], result => result
  | p :: ps, result =>
    let merged := result.merge (p text result.index)
    if merged.status = .success then seqGo text ps merged else merged

/-- The `LLParser::sequence` factory: the children are run left to right starting
from `Success(start, empty vector)`.  (The C++ template takes at least two children;
the embedding is over a list of any length.) -/
def sequence (ps : List ParserT) : ParserT := fun text start =>
  seqGo text ps (ParseResult.Success start (.list []))

/-- The loop of `LLParser::alternative`: each child is parsed at the original
`start` and merged into the accumulating result; the loop returns early as soon as
the merged result is a success. -/
def altGo (text : Str) (start : Nat) : List ParserT → ParseResult → ParseResult
  | [], result => result
  | p :: ps, result =>
    let merged := result.merge (p text start)
    if merged.status = .success then merged else altGo text start ps merged

/-- The `LLParser::alternative` factory: the children are merged left to right into
`Failure(start)`.  (The C++ template takes at least two children; the embedding is
over a list of any length.) -/
def alternative (ps : List ParserT) : ParserT := fun text start =>
  altGo text start ps (ParseResult.Failure0 start)

/-- The `LLParser::map` method: run the child; on failure pass the result through
unchanged, on success rebuild a `Success` at the same index whose value is the mapped
child value.  The user mapper (with its extra captured arguments already applied) is
modelled as a function on `Value`. -/
def map (p : ParserT) (f : Value → Value) : ParserT := fun text start =>
  let result := p text start
  if result.status = .success then ParseResult.Success result.index (f result.value)
  else result

/-- Indexing into a collected vector value (`values[i]` in the mappers used by
`skip` and `then`).  On a non-vector value the C++ `any_cast` would throw; both
callers apply it to the two-element vector built by `sequence`. -/
def Value.item : Value → Nat → Value
  | .list vs, n => vs.getD n .empty
  | _, _ => .empty

/-- The `LLParser::skip` method: `sequence(self, parser)` mapped to `values[0]`. -/
def skip (p other : ParserT) : ParserT :=
  map (sequence [p, other]) (fun v => v.item 0)

/-- The `LLParser::then` method (`then` is a Lean keyword, hence the trailing prime):
`sequence(self, parser)` mapped to `values[1]`. -/
def then' (p other : ParserT) : ParserT :=
  map (sequence [p, other]) (fun v => v.item 1)

/-- The `LLParser::or_else` method: `alternative(self, parser)`. -/
def or_else (p other : ParserT) : ParserT := alternative [p, other]

/-- The loop of `LLParser::times(min, max)`.  `remaining` counts the loop iterations
still allowed (`max - i`), `count` the iterations already performed (`i`), `index`
the current offset and `values` the collected child values.  A failing child is
returned as-is when fewer than `min` children have succeeded, and otherwise breaks
the loop, which returns the success accumulated so far. -/
def timesGo (p : ParserT) (text : Str) (min : Nat) :
    Nat → Nat → Nat → List Value → ParseResult
  | 0, _, index, values => ParseResult.Success index (.list values)
  | remaining + 1, count, index, values =>
    let r := p text index
    if r.status = .success then
      timesGo p text min remaining (count + 1) r.index (values ++ [r.value])
    else if count < min then r
    else ParseResult.Success index (.list values)

/-- The `LLParser::times(min, max)` method.  `uint32_t` bounds are modelled as `Nat`
(the callers below pass the same literals as the C++). -/
def times (p : ParserT) (min max : Nat) : ParserT := fun text start =>
  timesGo p text min max 0 start []

/-- The single-argument overload `LLParser::times(num)`: `times(num, num)`. -/
def timesN (p : ParserT) (num : Nat) : ParserT := times p num num

/-- The `LLParser::atMost` method: `times(0, num)`. -/
def atMost (p : ParserT) (num : Nat) : ParserT := times p 0 num

/-- The `LLParser::atLeast` method: `times(num, numeric_limits<uint32_t>::max())`. -/
def atLeast (p : ParserT) (num : Nat) : ParserT := times p num (2 ^ 32 - 1)

/-- The loop of `LLParser::many`, with an explicit iteration bound `fuel`.  The C++
loop runs only while `index < text.length()`; a child failure breaks it, a child
success that does not advance the index returns `Failure(index, "")` (the
infinite-loop guard), and any other child success appends its value and continues at
its index.  Every continuing iteration therefore strictly increases `index` below
`text.length`, so `text.length + 1 - start` iterations always suffice; the `fuel = 0`
arm is unreachable from `many` (it mirrors the value returned when the loop is never
entered).  A child success that moves the index backwards would make the C++ loop
spin; no parser of this library ever returns an index below its start (see
`bounded_of_built`), and this embedding returns the accumulated success there. -/
def manyGo (p : ParserT) (text : Str) :
    Nat → Nat → List Value → ParseResult
  | 0, index, values => ParseResult.Success index (.list values)
  | fuel + 1, index, values =>
    if index < text.length then
      let r := p text index
      if r.status = .success then
        if r.index = index then ParseResult.Failure1 r.index []
        else if index < r.index then manyGo p text fuel r.index (values ++ [r.value])
        else ParseResult.Success index (.list values)
      else ParseResult.Success index (.list values)
    else ParseResult.Success index (.list values)

/-- The `LLParser::many` method. -/
def many (p : ParserT) : ParserT := fun text start =>
  manyGo p text (text.length + 1 - start) start []

/-! ## Well-formed regex engines and the parsers constructible from the library -/

/-- A regex engine is bounded when a reported match of group 0 lies inside the
searched range — true of any real engine, and of all engines instantiated here. -/
def EngineBounded (engine : Str → Option (Nat × Str)) : Prop :=
  ∀ input n g, engine input = some (n, g) → n ≤ input.length

/-- The parsers constructible from the library's primitives (with any bounded regex
engine, and `lazy` with an assigned target) and its combinators. -/
inductive Built : ParserT → Prop where
  | string (lit : Str) (cs : Bool) : Built (string lit cs)
  | regex (pattern : Str) (engine : Str → Option (Nat × Str)) :
      EngineBounded engine → Built (regex pattern engine)
  | eof : Built eof
  | whitespaces : Built whitespaces
  | optional_whitespaces : Built optional_whitespaces
  | lazy {p : ParserT} : Built p → Built (lazy p)
  | sequence {ps : List ParserT} : (∀ p ∈ ps, Built p) → Built (sequence ps)
  | alternative {ps : List ParserT} : (∀ p ∈ ps, Built p) → Built (alternative ps)
  | map {p : ParserT} (f : Value → Value) : Built p → Built (map p f)
  | skip {p other : ParserT} : Built p → Built other → Built (skip p other)
  | then' {p other : ParserT} : Built p → Built other → Built (then' p other)
  | or_else {p other : ParserT} : Built p → Built other → Built (or_else p other)
  | times {p : ParserT} (min max : Nat) : Built p → Built (times p min max)
  | timesN {p : ParserT} (num : Nat) : Built p → Built (timesN p num)
  | atMost {p : ParserT} (num : Nat) : Built p → Built (atMost p num)
  | atLeast {p : ParserT} (num : Nat) : Built p → Built (atLeast p num)
  | many {p : ParserT} : Built p → Built (many p)

/-- The index invariant of spec §8: from a start offset inside the text, a parser
returns an index between that start and the end of the text (for failures as well
as successes). -/
def Bounded (p : ParserT) : Prop :=
  ∀ text start, start ≤ text.length →
    start ≤ (p text start).index ∧ (p text start).index ≤ text.length

/-! ## Basic properties of `merge` -/

/-- Merging never invents an index: the merged index is one of the two inputs. -/
theorem merge_index_or (a b : ParseResult) :
    (a.merge b).index = a.index ∨ (a.merge b).index = b.index := by
  unfold ParseResult.merge
  repeat' split
  all_goals simp

/-- Merging a failure into a failure yields a failure. -/
theorem merge_failure_failure {a b : ParseResult} (ha : a.status = .failure)
    (hb : b.status = .failure) : (a.merge b).status = .failure := by
  unfold ParseResult.merge
  repeat' split
  all_goals simp [ha, hb]

/-- Merging a success into a failure overwrites the failure wholesale. -/
theorem merge_failure_success {a b : ParseResult} (ha : a.status = .failure)
    (hb : b.status = .success) : a.merge b = b := by
  unfold ParseResult.merge
  rw [if_neg]
  rw [ha, hb]
  simp

/-- Merging a success into a success advances the index and appends the value. -/
theorem merge_success_success {a b : ParseResult} (ha : a.status = .success)
    (hb : b.status = .success) :
    a.merge b = { a with index := b.index, value := a.value.push b.value } := by
  unfold ParseResult.merge
  rw [if_pos (by rw [ha, hb]), if_pos ha]

/-- Merging a failure into a success overwrites the success wholesale. -/
theorem merge_success_failure {a b : ParseResult} (ha : a.status = .success)
    (hb : b.status = .failure) : a.merge b = b := by
  unfold ParseResult.merge
  rw [if_neg]
  rw [ha, hb]
  simp

/-- Furthest-failure rule, strictly-further case: the index and expectations are
replaced by `other`'s. -/
theorem merge_ff_gt {a b : ParseResult} (ha : a.status = .failure)
    (hb : b.status = .failure) (h : a.index < b.index) :
    a.merge b = { a with index := b.index, expectations := b.expectations } := by
  unfold ParseResult.merge
  rw [if_pos (by rw [ha, hb]), if_neg (by rw [ha]; simp), if_pos h]

/-- Furthest-failure rule, same-offset case: `other`'s expectations are appended. -/
theorem merge_ff_eq {a b : ParseResult} (ha : a.status = .failure)
    (hb : b.status = .failure) (h : b.index = a.index) :
    a.merge b = { a with expectations := a.expectations ++ b.expectations } := by
  unfold ParseResult.merge
  rw [if_pos (by rw [ha, hb]), if_neg (by rw [ha]; simp), if_neg (by omega), if_pos h]

/-- Furthest-failure rule, nearer-failure case: `other` is discarded. -/
theorem merge_ff_lt {a b : ParseResult} (ha : a.status = .failure)
    (hb : b.status = .failure) (h : b.index < a.index) :
    a.merge b = a := by
  unfold ParseResult.merge
  rw [if_pos (by rw [ha, hb]), if_neg (by rw [ha]; simp), if_neg (by omega),
    if_neg (by omega)]

/-! ## Boundedness of every parser of the library -/

theorem engineBounded_greedyPlus (pred : Char → Bool) : EngineBounded (greedyPlus pred) := by
  intro input n g h
  simp only [greedyPlus] at h
  split at h
  · exact absurd h (by simp)
  · obtain ⟨rfl, rfl⟩ : (input.takeWhile pred).length = n ∧ input.takeWhile pred = g := by
      simpa using h
    exact (List.takeWhile_sublist pred).length_le

theorem engineBounded_greedyStar (pred : Char → Bool) : EngineBounded (greedyStar pred) := by
  intro input n g h
  obtain ⟨rfl, rfl⟩ : (input.takeWhile pred).length = n ∧ input.takeWhile pred = g := by
    simpa [greedyStar] using h
  exact (List.takeWhile_sublist pred).length_le

/-- Unfolding of the `string` parser with its local variables substituted. -/
theorem string_eq (lit : Str) (cs : Bool) (text : Str) (start : Nat) :
    string lit cs text start =
      if (if cs then ((text.drop start).take lit.length) == lit
          else eqCaseInsensitive lit ((text.drop start).take lit.length)) = true
      then ParseResult.Success (start + lit.length) (.str ((text.drop start).take lit.length))
      else ParseResult.Failure1 start lit := rfl

/-- Whichever comparison the `string` parser performs, it only succeeds when the
candidate segment has the literal's length. -/
theorem string_eqv_length {lit candidate : Str} {cs : Bool}
    (h : (if cs then candidate == lit else eqCaseInsensitive lit candidate) = true) :
    candidate.length = lit.length := by
  rcases cs with _ | _
  · rw [if_neg (by simp)] at h
    have h1 := ((Bool.and_eq_true _ _).mp h).1
    simp only [beq_iff_eq] at h1
    omega
  · rw [if_pos rfl, beq_iff_eq] at h
    rw [h]

theorem bounded_string (lit : Str) (cs : Bool) : Bounded (string lit cs) := by
  intro text start hs
  rw [string_eq]
  by_cases h : (if cs then ((text.drop start).take lit.length) == lit
      else eqCaseInsensitive lit ((text.drop start).take lit.length)) = true
  · rw [if_pos h]
    refine ⟨Nat.le_add_right _ _, ?_⟩
    have hlen := string_eqv_length h
    rw [List.length_take, List.length_drop] at hlen
    simp only [ParseResult.Success]
    omega
  · rw [if_neg h]
    exact ⟨Nat.le.refl, hs⟩

theorem bounded_regex (pattern : Str) (engine : Str → Option (Nat × Str))
    (hb : EngineBounded engine) : Bounded (regex pattern engine) := by
  intro text start hs
  unfold regex
  cases heng : engine (text.drop start) with
  | none => exact ⟨Nat.le.refl, hs⟩
  | some m =>
    obtain ⟨n, g⟩ := m
    have := hb _ _ _ heng
    rw [List.length_drop] at this
    simp only [ParseResult.Success]
    constructor
    · exact Nat.le_add_right _ _
    · omega

theorem bounded_eof : Bounded eof := by
  intro text start hs
  unfold eof
  split <;> exact ⟨Nat.le.refl, hs⟩

theorem bounded_lazy {p : ParserT} (hp : Bounded p) : Bounded (lazy p) := hp

theorem bounded_map {p : ParserT} (f : Value → Value) (hp : Bounded p) :
    Bounded (map p f) := by
  intro text start hs
  unfold map
  simp only
  split <;> exact hp text start hs

/-- The `sequence` loop stays between the index of its accumulating result and the
end of the text. -/
theorem seqGo_index (text : Str) (ps : List ParserT) (hb : ∀ q ∈ ps, Bounded q) :
    ∀ r : ParseResult, r.index ≤ text.length →
      r.index ≤ (seqGo text ps r).index ∧ (seqGo text ps r).index ≤ text.length := by
  induction ps with
  | nil => exact fun r h => ⟨Nat.le.refl, h⟩
  | cons q ps ih =>
    intro r h
    have hq := hb q (List.mem_cons_self _ _) text r.index h
    have hmerged : r.index ≤ (r.merge (q text r.index)).index ∧
        (r.merge (q text r.index)).index ≤ text.length := by
      rcases merge_index_or r (q text r.index) with h' | h' <;> rw [h'] <;> omega
    simp only [seqGo]
    split
    · have := ih (fun q hq => hb q (List.mem_cons_of_mem _ hq)) _ hmerged.2
      exact ⟨Nat.le_trans hmerged.1 this.1, this.2⟩
    · exact hmerged

theorem bounded_sequence {ps : List ParserT} (hb : ∀ p ∈ ps, Bounded p) :
    Bounded (sequence ps) := by
  intro text start hs
  unfold sequence
  exact seqGo_index text ps hb (ParseResult.Success start (.list [])) hs

/-- The `alternative` loop stays between the index of its accumulating result and
the end of the text. -/
theorem altGo_index (text : Str) (start : Nat) (ps : List ParserT)
    (hb : ∀ q ∈ ps, Bounded q) (hs : start ≤ text.length) :
    ∀ r : ParseResult, start ≤ r.index → r.index ≤ text.length →
      start ≤ (altGo text start ps r).index ∧ (altGo text start ps r).index ≤ text.length := by
  induction ps with
  | nil => exact fun r h1 h2 => ⟨h1, h2⟩
  | cons q ps ih =>
    intro r h1 h2
    have hq := hb q (List.mem_cons_self _ _) text start hs
    have hmerged : start ≤ (r.merge (q text start)).index ∧
        (r.merge (q text start)).index ≤ text.length := by
      rcases merge_index_or r (q text start) with h' | h' <;> rw [h'] <;> omega
    simp only [altGo]
    split
    · exact hmerged
    · exact ih (fun q hq => hb q (List.mem_cons_of_mem _ hq)) _ hmerged.1 hmerged.2

theorem bounded_alternative {ps : List ParserT} (hb : ∀ p ∈ ps, Bounded p) :
    Bounded (alternative ps) := by
  intro text start hs
  unfold alternative
  exact altGo_index text start ps hb hs (ParseResult.Failure0 start) Nat.le.refl hs

/-- The `times` loop stays between its current index and the end of the text. -/
theorem timesGo_index {p : ParserT} (hp : Bounded p) (text : Str) (mn : Nat) :
    ∀ (remaining count index : Nat) (values : List Value), index ≤ text.length →
      index ≤ (timesGo p text mn remaining count index values).index ∧
      (timesGo p text mn remaining count index values).index ≤ text.length := by
  intro remaining
  induction remaining with
  | zero => exact fun count index values h => ⟨Nat.le.refl, h⟩
  | succ remaining ih =>
    intro count index values h
    have hr := hp text index h
    simp only [timesGo]
    split
    · have := ih (count + 1) (p text index).index (values ++ [(p text index).value]) hr.2
      exact ⟨Nat.le_trans hr.1 this.1, this.2⟩
    · split
      · exact hr
      · exact ⟨Nat.le.refl, h⟩

theorem bounded_times {p : ParserT} (mn mx : Nat) (hp : Bounded p) :
    Bounded (times p mn mx) := by
  intro text start hs
  unfold times
  exact timesGo_index hp text mn mx 0 start [] hs

/-- The `many` loop stays between its current index and the end of the text. -/
theorem manyGo_index {p : ParserT} (hp : Bounded p) (text : Str) :
    ∀ (fuel index : Nat) (values : List Value), index ≤ text.length →
      index ≤ (manyGo p text fuel index values).index ∧
      (manyGo p text fuel index values).index ≤ text.length := by
  intro fuel
  induction fuel with
  | zero => exact fun index values h => ⟨Nat.le.refl, h⟩
  | succ fuel ih =>
    intro index values h
    have hr := hp text index h
    simp only [manyGo]
    split
    · split
      · split
        case isTrue heq =>
          refine ⟨?_, ?_⟩ <;> simp only [ParseResult.Failure1] <;> omega
        case isFalse hne =>
          split
          case isTrue hlt =>
            have := ih (p text index).index (values ++ [(p text index).value]) hr.2
            exact ⟨Nat.le_trans (Nat.le_of_lt hlt) this.1, this.2⟩
          case isFalse => exact ⟨Nat.le.refl, h⟩
      · exact ⟨Nat.le.refl, h⟩
    · exact ⟨Nat.le.refl, h⟩

theorem bounded_many {p : ParserT} (hp : Bounded p) : Bounded (many p) := by
  intro text start hs
  unfold many
  exact manyGo_index hp text _ start [] hs

/-- Every parser built from the library's primitives and combinators satisfies the
index invariant. -/
theorem bounded_of_built {p : ParserT} (h : Built p) : Bounded p := by
  induction h with
  | string lit cs => exact bounded_string lit cs
  | regex pattern engine hb => exact bounded_regex pattern engine hb
  | eof => exact bounded_eof
  | whitespaces => exact bounded_regex _ _ (engineBounded_greedyPlus _)
  | optional_whitespaces => exact bounded_regex _ _ (engineBounded_greedyStar _)
  | lazy _ ih => exact bounded_lazy ih
  | sequence _ ih => exact bounded_sequence ih
  | alternative _ ih => exact bounded_alternative ih
  | map f _ ih => exact bounded_map f ih
  | skip _ _ ihp ihq => exact bounded_map _ (bounded_sequence (by
      intro q hq
      simp only [List.mem_cons, List.not_mem_nil, or_false] at hq
      rcases hq with rfl | rfl <;> assumption))
  | then' _ _ ihp ihq => exact bounded_map _ (bounded_sequence (by
      intro q hq
      simp only [List.mem_cons, List.not_mem_nil, or_false] at hq
      rcases hq with rfl | rfl <;> assumption))
  | or_else _ _ ihp ihq => exact bounded_alternative (by
      intro q hq
      simp only [List.mem_cons, List.not_mem_nil, or_false] at hq
      rcases hq with rfl | rfl <;> assumption)
  | times mn mx _ ih => exact bounded_times mn mx ih
  | timesN num _ ih => exact bounded_times num num ih
  | atMost num _ ih => exact bounded_times 0 num ih
  | atLeast num _ ih => exact bounded_times num (2 ^ 32 - 1) ih
  | many _ ih => exact bounded_many ih

/-! ## C1: the failure-merge algebra -/

/-- C1: `ParseResult.merge` obeys the failure-merge algebra: when `self` and `other`
are both Failures, a strictly larger `other.index` replaces `self`'s index and
expectations with `other`'s, an equal index appends `other`'s expectations to
`self`'s, and a smaller index leaves `self` unchanged; when the statuses differ,
`self` is overwritten wholesale by `other`. -/
theorem merge_failure_algebra (a b : ParseResult) :
    (a.status = .failure → b.status = .failure →
      (b.index > a.index →
        a.merge b = { a with index := b.index, expectations := b.expectations })
      ∧ (b.index = a.index →
        a.merge b = { a with expectations := a.expectations ++ b.expectations })
      ∧ (b.index < a.index → a.merge b = a))
    ∧ (a.status ≠ b.status → a.merge b = b) := by
  constructor
  · intro ha hb
    refine ⟨?_, ?_, ?_⟩ <;> intro hidx <;> unfold ParseResult.merge
    · rw [if_pos (by rw [ha, hb]), if_neg (by rw [ha]; simp), if_pos hidx]
    · rw [if_pos (by rw [ha, hb]), if_neg (by rw [ha]; simp), if_neg (by omega),
        if_pos hidx]
    · rw [if_pos (by rw [ha, hb]), if_neg (by rw [ha]; simp), if_neg (by omega),
        if_neg (by omega)]
  · intro hne
    unfold ParseResult.merge
    rw [if_neg hne]

/-- Witness for C1: the four branches of the algebra at concrete results. -/
theorem merge_failure_algebra_witness :
    ((ParseResult.Failure1 0 ['x']).merge (ParseResult.Failure1 1 ['y']) =
      { ParseResult.Failure1 0 ['x'] with index := 1, expectations := [['y']] })
    ∧ ((ParseResult.Failure1 2 ['x']).merge (ParseResult.Failure1 2 ['y']) =
      { ParseResult.Failure1 2 ['x'] with expectations := [['x']] ++ [['y']] })
    ∧ ((ParseResult.Failure1 3 ['x']).merge (ParseResult.Failure1 1 ['y']) =
      ParseResult.Failure1 3 ['x'])
    ∧ ((ParseResult.Success 5 .null).merge (ParseResult.Failure1 1 ['y']) =
      ParseResult.Failure1 1 ['y']) :=
  ⟨((merge_failure_algebra _ _).1 rfl rfl).1 (by decide),
   ((merge_failure_algebra _ _).1 rfl rfl).2.1 rfl,
   ((merge_failure_algebra _ _).1 rfl rfl).2.2 (by decide),
   (merge_failure_algebra _ _).2 (by simp [ParseResult.Success, ParseResult.Failure1])⟩

/-! ## C9: the universal index invariant -/

/-- C9: for every parser built from the library's primitives (`literal`, `regex`,
`eof`, whitespace, `lazy` with an assigned target) and combinators (`sequence`,
`alternative`, `map`, `then`, `skip`, `or_else`, `times`, `at_least`, `at_most`,
`many`), and every text and start offset with `0 ≤ start ≤ len(text)`, the returned
result has `0 ≤ index ≤ len(text)` (indices are naturals, so `0 ≤ index` is
intrinsic), and on success `index ≥ start`. -/
theorem built_index_invariant {p : ParserT} (hp : Built p) (text : Str) (start : Nat)
    (hs : start ≤ text.length) :
    (p text start).index ≤ text.length ∧
    ((p text start).status = .success → start ≤ (p text start).index) := by
  have h := bounded_of_built hp text start hs
  exact ⟨h.2, fun _ => h.1⟩

/-- Witness for C9: the invariant at a concrete composite parser and input. -/
theorem built_index_invariant_witness :
    (then' (string ['a'] true) (many eof) ['a', 'b'] 1).index ≤ List.length ['a', 'b'] ∧
    ((then' (string ['a'] true) (many eof) ['a', 'b'] 1).status = .success →
      1 ≤ (then' (string ['a'] true) (many eof) ['a', 'b'] 1).index) :=
  built_index_invariant
    (Built.then' (Built.string ['a'] true) (Built.many Built.eof)) ['a', 'b'] 1 (by decide)

/-! ## C10: `many` never enters its loop at or beyond end of input -/

/-- C10: `many(child).parse(t, s)` with `s ≥ len(t)` returns `Success(s, [])` for
every child parser — the repetition loop only runs while the current index is
strictly below `len(t)` — so the zero-width guard can never fire at end of input,
even for a child that would succeed there without consuming. -/
theorem many_at_end_of_input (p : ParserT) (text : Str) (start : Nat)
    (hs : text.length ≤ start) :
    many p text start = ParseResult.Success start (.list []) := by
  unfold many
  cases hfuel : text.length + 1 - start with
  | zero => rfl
  | succ fuel =>
    simp only [manyGo]
    rw [if_neg (by omega)]

/-- Witness for C10: at end of input, `many eof` succeeds with the empty list even
though `eof` itself would succeed there without consuming. -/
theorem many_at_end_of_input_witness :
    many eof ['a'] 1 = ParseResult.Success 1 (.list []) ∧
    eof ['a'] 1 = ParseResult.Success 1 .null :=
  ⟨many_at_end_of_input eof ['a'] 1 (by decide), rfl⟩

/-! ## C4: the literal parser -/

/-- Pointwise comparison up to ASCII case agrees with `eqCaseInsensitive`. -/
theorem eqCaseInsensitive_iff (a b : Str) :
    eqCaseInsensitive a b = true ↔ a.map toLowerChar = b.map toLowerChar := by
  induction a generalizing b with
  | nil => cases b <;> simp [eqCaseInsensitive]
  | cons x a ih =>
    cases b with
    | nil => simp [eqCaseInsensitive]
    | cons y b =>
      have ih' := ih b
      simp only [eqCaseInsensitive, List.zip_cons_cons, List.all_cons, List.map_cons,
        List.length_cons, Bool.and_eq_true, beq_iff_eq, List.cons.injEq,
        Nat.add_right_cancel_iff] at ih' ⊢
      tauto

/-- The claim's matching condition for `literal(s, cs)` at `(t, start)`: the input
extends to `start + len(s)` and the segment there equals `s`, exactly when
case-sensitive and up to ASCII case otherwise. -/
abbrev LiteralMatches (lit : Str) (cs : Bool) (text : Str) (start : Nat) : Prop :=
  start + lit.length ≤ text.length ∧
    (if cs then (text.drop start).take lit.length = lit
     else ((text.drop start).take lit.length).map toLowerChar = lit.map toLowerChar)

/-- The boolean test of the `string` parser decides exactly the claim's matching
condition (for a start offset inside the text). -/
theorem string_condition_iff (lit : Str) (cs : Bool) (text : Str) (start : Nat)
    (hs : start ≤ text.length) :
    ((if cs then ((text.drop start).take lit.length) == lit
      else eqCaseInsensitive lit ((text.drop start).take lit.length)) = true)
    ↔ LiteralMatches lit cs text start := by
  have hclen : ((text.drop start).take lit.length).length =
      min lit.length (text.length - start) := by
    rw [List.length_take, List.length_drop]
  rcases cs with _ | _
  · rw [if_neg (by simp), eqCaseInsensitive_iff]
    unfold LiteralMatches
    rw [if_neg (by simp)]
    constructor
    · intro h
      have hlen : lit.length = ((text.drop start).take lit.length).length := by
        simpa using congrArg List.length h
      exact ⟨by omega, h.symm⟩
    · exact fun h => h.2.symm
  · rw [if_pos rfl, beq_iff_eq]
    unfold LiteralMatches
    rw [if_pos rfl]
    constructor
    · intro h
      have hlen : lit.length = ((text.drop start).take lit.length).length := by
        rw [h]
      exact ⟨by omega, h⟩
    · exact fun h => h.2

/-- C4: `literal(s, cs)` at `(t, start)` succeeds if and only if the input at
positions `start..start+len(s)` equals `s` (exactly when case-sensitive, up to
ASCII case otherwise); on success the index is `start + len(s)` and the value is
the matched substring of the input itself (preserving the input's case), and
otherwise — including when the remaining input is shorter than `s` or empty — it
fails at `start` with expectations `[s]`. -/
theorem literal_spec (lit : Str) (cs : Bool) (text : Str) (start : Nat)
    (hs : start ≤ text.length) :
    (LiteralMatches lit cs text start →
      string lit cs text start =
        ParseResult.Success (start + lit.length) (.str ((text.drop start).take lit.length)))
    ∧ (¬ LiteralMatches lit cs text start →
      string lit cs text start = ParseResult.Failure1 start lit) := by
  rw [string_eq]
  constructor
  · intro hm
    rw [if_pos ((string_condition_iff lit cs text start hs).mpr hm)]
  · intro hm
    rw [if_neg (fun h => hm ((string_condition_iff lit cs text start hs).mp h))]

/-- Witness for C4: scenario S3 (case-insensitive success preserving input case)
and scenario S2 (case-sensitive failure at index 0). -/
theorem literal_spec_witness :
    string "Hello, world!".toList false "hello, WorLd!".toList 0 =
      ParseResult.Success 13 (.str "hello, WorLd!".toList) ∧
    string "Hello, world!".toList true "hello, world!".toList 0 =
      ParseResult.Failure1 0 "Hello, world!".toList :=
  ⟨(literal_spec "Hello, world!".toList false "hello, WorLd!".toList 0 (by decide)).1
      (by decide),
   (literal_spec "Hello, world!".toList true "hello, world!".toList 0 (by decide)).2
      (by decide)⟩

/-! ## C5: the regex parser -/

/-- C5: `regex(pattern, group)` matches the pattern anchored at `start` — the
compiled pattern `^(?:pattern)` is searched over the suffix of the text at `start`,
so a match cannot begin later in the text; on a match it succeeds with index
`start + length(group 0)` and the text of the requested capture group as value, and
on no match it fails at `start` expecting the raw pattern; concretely, `regex("\d+")`
on `"a123456"` succeeds at start 6 with index 7 and value `"6"`, and fails at
start 0. -/
theorem regex_spec :
    (∀ (pattern : Str) (engine : Str → Option (Nat × Str)) (text : Str)
        (start n : Nat) (g : Str),
      engine (text.drop start) = some (n, g) →
      regex pattern engine text start = ParseResult.Success (start + n) (.str g))
    ∧ (∀ (pattern : Str) (engine : Str → Option (Nat × Str)) (text : Str) (start : Nat),
      engine (text.drop start) = none →
      regex pattern engine text start = ParseResult.Failure1 start pattern)
    ∧ digits "a123456".toList 6 = ParseResult.Success 7 (.str "6".toList)
    ∧ digits "a123456".toList 0 = ParseResult.Failure1 0 "\\d+".toList := by
  refine ⟨?_, ?_, rfl, rfl⟩
  · intro pattern engine text start n g h
    unfold regex
    rw [h]
  · intro pattern engine text start h
    unfold regex
    rw [h]

/-- Witness for C5: the success case applied to the digit engine of scenario S4. -/
theorem regex_spec_witness :
    regex "\\d+".toList (greedyPlus Char.isDigit) "a123456".toList 6 =
      ParseResult.Success 7 (.str "6".toList) :=
  regex_spec.1 "\\d+".toList (greedyPlus Char.isDigit) "a123456".toList 6 1 ['6'] rfl

/-! ## C3: the sequence combinator -/

@[simp] theorem Success_status (i : Nat) (v : Value) :
    (ParseResult.Success i v).status = .success := rfl

@[simp] theorem Success_index (i : Nat) (v : Value) :
    (ParseResult.Success i v).index = i := rfl

@[simp] theorem Success_value (i : Nat) (v : Value) :
    (ParseResult.Success i v).value = v := rfl

@[simp] theorem Success_expectations (i : Nat) (v : Value) :
    (ParseResult.Success i v).expectations = [] := rfl

@[simp] theorem Failure1_status (i : Nat) (e : Str) :
    (ParseResult.Failure1 i e).status = .failure := rfl

@[simp] theorem Failure1_index (i : Nat) (e : Str) :
    (ParseResult.Failure1 i e).index = i := rfl

@[simp] theorem Failure1_value (i : Nat) (e : Str) :
    (ParseResult.Failure1 i e).value = .empty := rfl

@[simp] theorem Failure1_expectations (i : Nat) (e : Str) :
    (ParseResult.Failure1 i e).expectations = [e] := rfl

@[simp] theorem Failure0_status (i : Nat) : (ParseResult.Failure0 i).status = .failure := rfl

@[simp] theorem Failure0_index (i : Nat) : (ParseResult.Failure0 i).index = i := rfl

@[simp] theorem Failure0_value (i : Nat) : (ParseResult.Failure0 i).value = .empty := rfl

@[simp] theorem Failure0_expectations (i : Nat) :
    (ParseResult.Failure0 i).expectations = [] := rfl

/-- Prepending a value to a collected list value (used to state how a sequence's
result relates to the result of the remaining children). -/
def Value.consL (w : Value) : Value → Value
  | .list vs => .list (w :: vs)
  | v => v

/-- Prepending a value to the collected list of a success, leaving failures
untouched (used to state C3). -/
def ParseResult.consVal (w : Value) (r : ParseResult) : ParseResult :=
  if r.status = .success then { r with value := Value.consL w r.value } else r

/-- Merging a success into a collected success appends its value to the vector. -/
theorem merge_Success_list (i : Nat) (vs : List Value) {r : ParseResult}
    (hr : r.status = .success) :
    (ParseResult.Success i (.list vs)).merge r =
      ParseResult.Success r.index (.list (vs ++ [r.value])) := by
  rw [merge_success_success rfl hr]
  simp [ParseResult.Success, Value.push]

/-- Collecting one more leading value commutes with running the `sequence` loop. -/
theorem seqGo_cons (text : Str) (ps : List ParserT) :
    ∀ (i : Nat) (w : Value) (vs : List Value),
      seqGo text ps (ParseResult.Success i (.list (w :: vs))) =
        ParseResult.consVal w (seqGo text ps (ParseResult.Success i (.list vs))) := by
  induction ps with
  | nil =>
    intro i w vs
    simp [seqGo, ParseResult.consVal, ParseResult.Success, Value.consL]
  | cons q ps ih =>
    intro i w vs
    simp only [seqGo, Success_index]
    rcases hq : (q text i).status with _ | _
    · rw [merge_Success_list i (w :: vs) hq, merge_Success_list i vs hq,
        if_pos (Success_status _ _), if_pos (Success_status _ _), List.cons_append]
      exact ih (q text i).index w (vs ++ [(q text i).value])
    · rw [merge_success_failure rfl hq, merge_success_failure rfl hq,
        if_neg (by rw [hq]; simp)]
      simp [ParseResult.consVal, hq]

/-- An empty `sequence` succeeds at its start with the empty collected vector. -/
theorem sequence_nil (text : Str) (start : Nat) :
    sequence [] text start = ParseResult.Success start (.list []) := rfl

/-- A `sequence` whose first child fails returns that child's failure unchanged,
regardless of the remaining children. -/
theorem sequence_cons_fail {p : ParserT} (ps : List ParserT) {text : Str} {start : Nat}
    (hp : (p text start).status = .failure) :
    sequence (p :: ps) text start = p text start := by
  unfold sequence
  simp only [seqGo, Success_index]
  rw [merge_success_failure rfl hp, if_neg (by rw [hp]; simp)]

/-- A `sequence` whose first child succeeds behaves as the remaining children run
from the child's index, with the child's value prepended to the collected list. -/
theorem sequence_cons_succ {p : ParserT} (ps : List ParserT) {text : Str} {start : Nat}
    (hp : (p text start).status = .success) :
    sequence (p :: ps) text start =
      ParseResult.consVal (p text start).value
        (sequence ps text (p text start).index) := by
  unfold sequence
  simp only [seqGo, Success_index]
  rw [merge_Success_list start [] hp, if_pos (Success_status _ _), List.nil_append]
  exact seqGo_cons text ps (p text start).index (p text start).value []

/-- All children of a list succeed in turn: from offset `i`, each child succeeds
starting where the previous one ended, finishing at `j` having produced `vs`. -/
inductive AllSucceed (text : Str) : List ParserT → Nat → Nat → List Value → Prop
  | nil (i : Nat) : AllSucceed text [] i i []
  | cons {p : ParserT} {ps : List ParserT} {i j : Nat} {vs : List Value} :
      (p text i).status = .success →
      AllSucceed text ps (p text i).index j vs →
      AllSucceed text (p :: ps) i j ((p text i).value :: vs)

/-- When every child succeeds in turn, `sequence` succeeds with the last child's
index and the ordered list of the children's values. -/
theorem sequence_all_succeed {text : Str} {ps : List ParserT} {start j : Nat}
    {vs : List Value} (h : AllSucceed text ps start j vs) :
    sequence ps text start = ParseResult.Success j (.list vs) := by
  induction h with
  | nil i => exact sequence_nil text i
  | cons hp _ ih =>
    rw [sequence_cons_succ _ hp, ih]
    simp [ParseResult.consVal, ParseResult.Success, Value.consL]

/-- C3: `sequence(p1, ..., pN)` runs its children left to right, each child starting
at the index where the previous child succeeded (the first at `start`); if every
child succeeds the result is a Success whose index is the last child's index and
whose value is the list of the children's values in order; on the first child
failure that child's Failure is returned unchanged (same index and expectations)
and the remaining children are not invoked (the result does not depend on them). -/
theorem sequence_spec :
    (∀ (text : Str) (start : Nat),
      sequence [] text start = ParseResult.Success start (.list []))
    ∧ (∀ (p : ParserT) (ps : List ParserT) (text : Str) (start : Nat),
      (p text start).status = .failure →
      sequence (p :: ps) text start = p text start)
    ∧ (∀ (p : ParserT) (ps : List ParserT) (text : Str) (start : Nat),
      (p text start).status = .success →
      sequence (p :: ps) text start =
        ParseResult.consVal (p text start).value (sequence ps text (p text start).index))
    ∧ (∀ (text : Str) (ps : List ParserT) (start j : Nat) (vs : List Value),
      AllSucceed text ps start j vs →
      sequence ps text start = ParseResult.Success j (.list vs)) :=
  ⟨sequence_nil, fun _ ps _ _ h => sequence_cons_fail ps h,
   fun _ ps _ _ h => sequence_cons_succ ps h,
   fun _ _ _ _ _ h => sequence_all_succeed h⟩

/-- Witness for C3: scenario S7 — the sequence `"\"" (\w+) "\""` on `"\"123456"`
fails with the third child's failure (index 7, expecting `"`), unchanged; and the
first two children all succeed in turn, collecting their values in order. -/
theorem sequence_spec_witness :
    sequence [string "\"".toList true, digits, string "\"".toList true]
        "\"123456".toList 0 = ParseResult.Failure1 7 "\"".toList ∧
    sequence [string "\"".toList true, digits] "\"123456".toList 0 =
      ParseResult.Success 7 (.list [.str "\"".toList, .str "123456".toList]) := by
  constructor
  · exact Eq.trans (sequence_spec.2.2.1 (string "\"".toList true)
      [digits, string "\"".toList true] "\"123456".toList 0 rfl) rfl
  · exact sequence_spec.2.2.2 "\"123456".toList _ 0 7
      [.str "\"".toList, .str "123456".toList]
      (.cons rfl (.cons rfl (.nil 7)))

/-! ## C2: the alternative combinator -/

/-- Running maximum of a list of indices, as accumulated by the alternative loop. -/
def runMax (is : List Nat) (seed : Nat) : Nat := is.foldl max seed

theorem runMax_cons (i : Nat) (is : List Nat) (seed : Nat) :
    runMax (i :: is) seed = runMax is (max seed i) := rfl

theorem le_runMax (is : List Nat) (seed : Nat) : seed ≤ runMax is seed := by
  induction is generalizing seed with
  | nil => exact Nat.le.refl
  | cons i is ih => exact Nat.le_trans (le_max_left seed i) (ih (max seed i))

theorem runMax_max (is : List Nat) (a b : Nat) :
    runMax is (max a b) = max a (runMax is b) := by
  induction is generalizing b with
  | nil => rfl
  | cons i is ih => rw [runMax_cons, runMax_cons, max_assoc, ih]

theorem mem_le_runMax {i : Nat} {is : List Nat} (h : i ∈ is) (seed : Nat) :
    i ≤ runMax is seed := by
  induction is generalizing seed with
  | nil => cases h
  | cons j js ih =>
    rcases List.mem_cons.mp h with rfl | h'
    · exact Nat.le_trans (le_max_right seed i) (le_runMax js _)
    · exact ih h' _

/-- The concatenation, in declaration order, of the expectations of exactly the
children whose failure index equals `M` (the claim's description of the
expectations of a failed alternative). -/
def expAtMax (text : Str) (start M : Nat) (ps : List ParserT) : List Str :=
  ((ps.filter fun q => (q text start).index == M).map
    fun q => (q text start).expectations).flatten

theorem expAtMax_nil (text : Str) (start M : Nat) : expAtMax text start M [] = [] := rfl

theorem expAtMax_cons (text : Str) (start M : Nat) (q : ParserT) (qs : List ParserT) :
    expAtMax text start M (q :: qs) =
      (if (q text start).index = M then (q text start).expectations else []) ++
        expAtMax text start M qs := by
  unfold expAtMax
  rw [List.filter_cons]
  by_cases h : (q text start).index = M
  · rw [if_pos (by simpa using h), if_pos h, List.map_cons]
    simp
  · rw [if_neg (by simpa using h), if_neg h, List.nil_append]

/-- Furthest-failure merge with an explicit accumulator, strictly-further case. -/
theorem merge_ff_gt2 {i : Nat} (v : Value) (e : List Str) {b : ParseResult}
    (hb : b.status = .failure) (h : i < b.index) :
    (⟨.failure, i, v, e⟩ : ParseResult).merge b =
      ⟨.failure, b.index, v, b.expectations⟩ := by
  unfold ParseResult.merge
  rw [if_pos (by simp [hb]), if_neg (by simp), if_pos h]

/-- Furthest-failure merge with an explicit accumulator, same-offset case. -/
theorem merge_ff_eq2 {i : Nat} (v : Value) (e : List Str) {b : ParseResult}
    (hb : b.status = .failure) (h : b.index = i) :
    (⟨.failure, i, v, e⟩ : ParseResult).merge b =
      ⟨.failure, i, v, e ++ b.expectations⟩ := by
  unfold ParseResult.merge
  rw [if_pos (by simp [hb]), if_neg (by simp), if_neg (by simp [h]), if_pos h]

/-- Furthest-failure merge with an explicit accumulator, nearer-failure case. -/
theorem merge_ff_lt2 {i : Nat} (v : Value) (e : List Str) {b : ParseResult}
    (hb : b.status = .failure) (h : b.index < i) :
    (⟨.failure, i, v, e⟩ : ParseResult).merge b = ⟨.failure, i, v, e⟩ := by
  unfold ParseResult.merge
  rw [if_pos (by simp [hb]), if_neg (by simp), if_neg (by simp; omega),
    if_neg (by simp; omega)]

/-- Characterization of the alternative loop when every child fails: the final index
is the running maximum of the children's failure indices over the seed's index, the
seed's value is kept, and the expectations are the seed's (when its index attains
the maximum) followed by the expectations of exactly the children attaining the
maximum, in declaration order. -/
theorem altGo_all_fail (text : Str) (start : Nat) :
    ∀ (ps : List ParserT) (i : Nat) (v : Value) (e : List Str),
      (∀ q ∈ ps, (q text start).status = .failure) →
      altGo text start ps ⟨.failure, i, v, e⟩ =
        ⟨.failure,
         runMax (ps.map fun q => (q text start).index) i,
         v,
         (if i = runMax (ps.map fun q => (q text start).index) i then e else []) ++
           expAtMax text start (runMax (ps.map fun q => (q text start).index) i) ps⟩ := by
  intro ps
  induction ps with
  | nil =>
    intro i v e _
    simp [altGo, runMax, expAtMax]
  | cons q qs ih =>
    intro i v e hf
    have hqf : (q text start).status = .failure := hf q (List.mem_cons_self _ _)
    have hf' : ∀ p ∈ qs, (p text start).status = .failure :=
      fun p hp => hf p (List.mem_cons_of_mem _ hp)
    simp only [altGo, List.map_cons, runMax_cons, expAtMax_cons]
    rcases Nat.lt_trichotomy ((q text start).index) i with hlt | heq | hgt
    · -- nearer failure: the child is discarded
      have hmax : max i ((q text start).index) = i := max_eq_left (Nat.le_of_lt hlt)
      rw [merge_ff_lt2 v e hqf hlt, if_neg (by simp), ih i v e hf']
      simp only [hmax]
      have hne : ¬ ((q text start).index =
          runMax (qs.map fun p => (p text start).index) i) :=
        Nat.ne_of_lt (Nat.lt_of_lt_of_le hlt
          (le_runMax (qs.map fun p => (p text start).index) i))
      simp only [if_neg hne, List.nil_append]
    · -- same offset: the child's expectations are appended to the seed's
      have hmax : max i ((q text start).index) = i := by rw [heq, max_self]
      rw [merge_ff_eq2 v e hqf heq, if_neg (by simp),
        ih i v (e ++ (q text start).expectations) hf']
      simp only [hmax]
      by_cases hM : i = runMax (qs.map fun p => (p text start).index) i
      · simp only [heq, if_pos hM, List.append_assoc]
      · simp only [heq, if_neg hM, List.nil_append]
    · -- further failure: the seed's index and expectations are replaced
      have hmax : max i ((q text start).index) = (q text start).index :=
        max_eq_right (Nat.le_of_lt hgt)
      rw [merge_ff_gt2 v e hqf hgt, if_neg (by simp),
        ih ((q text start).index) v ((q text start).expectations) hf']
      simp only [hmax]
      have hne : ¬ (i = runMax (qs.map fun p => (p text start).index)
          ((q text start).index)) :=
        Nat.ne_of_lt (Nat.lt_of_lt_of_le hgt
          (le_runMax (qs.map fun p => (p text start).index) ((q text start).index)))
      simp only [if_neg hne, List.nil_append]

/-- Skipping failing children: the alternative loop returns the first succeeding
child's result unchanged, whatever comes after it. -/
theorem altGo_first_success (text : Str) (start : Nat) :
    ∀ (ps1 : List ParserT) (r : ParseResult), r.status = .failure →
      (∀ q ∈ ps1, (q text start).status = .failure) →
      ∀ (p : ParserT) (ps2 : List ParserT), (p text start).status = .success →
      altGo text start (ps1 ++ p :: ps2) r = p text start := by
  intro ps1
  induction ps1 with
  | nil =>
    intro r hr _ p ps2 hp
    simp only [List.nil_append, altGo]
    rw [merge_failure_success hr hp, if_pos hp]
  | cons q qs ih =>
    intro r hr hf p ps2 hp
    have hqf : (q text start).status = .failure := hf q (List.mem_cons_self _ _)
    simp only [List.cons_append, altGo]
    rw [if_neg (by rw [merge_failure_failure hr hqf]; simp)]
    exact ih _ (merge_failure_failure hr hqf)
      (fun q hq => hf q (List.mem_cons_of_mem _ hq)) p ps2 hp

/-- C2: `alternative(p1, ..., pN)` tries its children left to right, each invoked at
the original start; if some child succeeds, the result equals the result of the
leftmost succeeding child, independent of the children after it (they are not
invoked); if all children fail, the result is a Failure whose index is the maximum
over the children's failure indices and whose expectations are the concatenation, in
declaration order, of the expectations of exactly the children whose failure index
equals that maximum. -/
theorem alternative_spec :
    (∀ (text : Str) (start : Nat) (ps1 : List ParserT) (p : ParserT) (ps2 : List ParserT),
      (∀ q ∈ ps1, (q text start).status = .failure) →
      (p text start).status = .success →
      alternative (ps1 ++ p :: ps2) text start = p text start)
    ∧ (∀ (text : Str) (start : Nat) (p : ParserT) (ps : List ParserT),
      (∀ q ∈ p :: ps, Built q) → start ≤ text.length →
      (∀ q ∈ p :: ps, (q text start).status = .failure) →
      alternative (p :: ps) text start =
        ⟨.failure,
         runMax ((p :: ps).map fun q => (q text start).index) 0,
         .empty,
         expAtMax text start (runMax ((p :: ps).map fun q => (q text start).index) 0)
           (p :: ps)⟩) := by
  constructor
  · intro text start ps1 p ps2 hf hp
    unfold alternative
    exact altGo_first_success text start ps1 _ rfl hf p ps2 hp
  · intro text start p ps hb hs hf
    show altGo text start (p :: ps) ⟨.failure, start, .empty, []⟩ = _
    rw [altGo_all_fail text start (p :: ps) start .empty [] hf]
    have hseed : runMax ((p :: ps).map fun q => (q text start).index) start =
        runMax ((p :: ps).map fun q => (q text start).index) 0 := by
      have h1 : start ≤ (p text start).index :=
        (bounded_of_built (hb p (List.mem_cons_self _ _)) text start hs).1
      have h2 : (p text start).index ≤
          runMax ((p :: ps).map fun q => (q text start).index) 0 :=
        mem_le_runMax
          (List.mem_map_of_mem (fun q => (q text start).index) (List.mem_cons_self p ps)) 0
      have h3 := runMax_max ((p :: ps).map fun q => (q text start).index) start 0
      have h4 : max start 0 = start := max_eq_left (Nat.zero_le _)
      rw [h4] at h3
      rw [h3]
      exact max_eq_right (Nat.le_trans h1 h2)
    simp only [hseed, ite_self, List.nil_append]

/-- Witness for C2: the first failing child is skipped and the second child's
success is returned as-is; and when both children fail at offset 0 the expectations
are concatenated in declaration order. -/
theorem alternative_spec_witness :
    alternative [string ['x'] true, string ['a'] true] ['a', 'b'] 0 =
      string ['a'] true ['a', 'b'] 0 ∧
    alternative [string ['a', 'b'] true, string ['a'] true] ['x'] 0 =
      ⟨.failure, 0, .empty, [['a', 'b'], ['a']]⟩ := by
  constructor
  · exact alternative_spec.1 ['a', 'b'] 0 [string ['x'] true] (string ['a'] true) []
      (by intro q hq; rw [List.mem_singleton] at hq; subst hq; rfl) rfl
  · exact Eq.trans (alternative_spec.2 ['x'] 0 (string ['a', 'b'] true) [string ['a'] true]
      (by
        intro q hq
        simp only [List.mem_cons, List.not_mem_nil, or_false] at hq
        rcases hq with rfl | rfl <;> exact Built.string _ _)
      (by decide)
      (by
        intro q hq
        simp only [List.mem_cons, List.not_mem_nil, or_false] at hq
        rcases hq with rfl | rfl <;> rfl)) rfl

/-! ## C6: the times combinator -/

/-- Repeated successful child invocations: starting from `(start, [])`, after `k`
successes the `times` loop stands at offset `i` with collected values `vs`, each
invocation having started where the previous one ended. -/
inductive TimesVisits (p : ParserT) (text : Str) (start : Nat) :
    Nat → Nat → List Value → Prop
  | init : TimesVisits p text start 0 start []
  | step {k i : Nat} {vs : List Value} : TimesVisits p text start k i vs →
      (p text i).status = .success →
      TimesVisits p text start (k + 1) (p text i).index (vs ++ [(p text i).value])

/-- The `times` loop traced along a chain of `k ≤ max` child successes. -/
theorem timesGo_of_visits {p : ParserT} {text : Str} {start : Nat} (mn mx : Nat) :
    ∀ {k i : Nat} {vs : List Value}, TimesVisits p text start k i vs → k ≤ mx →
      times p mn mx text start = timesGo p text mn (mx - k) k i vs := by
  intro k i vs h
  induction h with
  | init =>
    intro _
    show timesGo p text mn mx 0 start [] = timesGo p text mn (mx - 0) 0 start []
    rw [Nat.sub_zero]
  | @step k i vs h hs ih =>
    intro hk
    have hrem : mx - k = (mx - (k + 1)) + 1 := by omega
    rw [ih (by omega), hrem]
    simp only [timesGo]
    rw [if_pos hs]

/-- C6: for `times(min, max)` with `min ≤ max`, the child is invoked at most `max`
times, each invocation starting where the previous success ended; a child failure
with fewer than `min` collected successes is returned as-is; a child failure with at
least `min` collected successes yields a Success with the values collected so far
and the index before the failed attempt; and after `max` consecutive successes the
Success with all `max` collected values is returned. -/
theorem times_spec (p : ParserT) (text : Str) (start mn mx : Nat) (hmn : mn ≤ mx) :
    ∀ (k i : Nat) (vs : List Value), TimesVisits p text start k i vs →
      ((p text i).status = .failure → k < mn →
        times p mn mx text start = p text i)
      ∧ ((p text i).status = .failure → mn ≤ k → k < mx →
        times p mn mx text start = ParseResult.Success i (.list vs))
      ∧ (k = mx → times p mn mx text start = ParseResult.Success i (.list vs)) := by
  intro k i vs h
  refine ⟨?_, ?_, ?_⟩
  · intro hfail hk
    rw [timesGo_of_visits mn mx h (by omega)]
    have hrem : mx - k = (mx - k - 1) + 1 := by omega
    rw [hrem]
    simp only [timesGo]
    rw [if_neg (by rw [hfail]; simp), if_pos hk]
  · intro hfail hk hkmx
    rw [timesGo_of_visits mn mx h (by omega)]
    have hrem : mx - k = (mx - k - 1) + 1 := by omega
    rw [hrem]
    simp only [timesGo]
    rw [if_neg (by rw [hfail]; simp), if_neg (by omega)]
  · intro hkmx
    subst hkmx
    rw [timesGo_of_visits mn k h (Nat.le_refl _), Nat.sub_self]
    rfl

/-- Witness for C6: `times(2, 3)` of `literal("a")`: on `"b"` the first invocation
fails below `min` and its failure is returned as-is; on `"aaa"` the loop stops after
`max = 3` successes with all three collected values; on `"aab"` the third invocation
fails after `min` successes and the collected values are returned. -/
theorem times_spec_witness :
    times (string ['a'] true) 2 3 ['b'] 0 = string ['a'] true ['b'] 0 ∧
    times (string ['a'] true) 2 3 ['a', 'a', 'a'] 0 =
      ParseResult.Success 3 (.list [.str ['a'], .str ['a'], .str ['a']]) ∧
    times (string ['a'] true) 2 3 ['a', 'a', 'b'] 0 =
      ParseResult.Success 2 (.list [.str ['a'], .str ['a']]) :=
  ⟨(times_spec (string ['a'] true) ['b'] 0 2 3 (by decide) 0 0 [] .init).1 rfl (by decide),
   (times_spec (string ['a'] true) ['a', 'a', 'a'] 0 2 3 (by decide) 3 3
      [.str ['a'], .str ['a'], .str ['a']]
      ((TimesVisits.init.step rfl).step rfl |>.step rfl)).2.2 rfl,
   (times_spec (string ['a'] true) ['a', 'a', 'b'] 0 2 3 (by decide) 2 2
      [.str ['a'], .str ['a']]
      ((TimesVisits.init.step rfl).step rfl)).2.1 rfl (by decide) (by decide)⟩

/-! ## C7: the zero-width guard of many -/

/-- States visited by the `many` loop: from `(start, [])`, each further state is
reached by a child success inside the text that strictly advanced the index. -/
inductive ManyVisits (p : ParserT) (text : Str) (start : Nat) : Nat → List Value → Prop
  | init : ManyVisits p text start start []
  | step {i : Nat} {vs : List Value} : ManyVisits p text start i vs →
      i < text.length → (p text i).status = .success → i < (p text i).index →
      ManyVisits p text start (p text i).index (vs ++ [(p text i).value])

/-- At or beyond the end of the text the `many` loop returns immediately. -/
theorem manyGo_at_end {p : ParserT} {text : Str} (fuel i : Nat) (vs : List Value)
    (h : text.length ≤ i) :
    manyGo p text fuel i vs = ParseResult.Success i (.list vs) := by
  cases fuel with
  | zero => rfl
  | succ fuel =>
    simp only [manyGo]
    rw [if_neg (by omega)]

/-- The `many` loop does not depend on its iteration bound, as long as the bound
exceeds the number of text positions left. -/
theorem manyGo_fuel {p : ParserT} {text : Str} :
    ∀ (fuel1 fuel2 i : Nat) (vs : List Value), text.length < fuel1 + i →
      text.length < fuel2 + i →
      manyGo p text fuel1 i vs = manyGo p text fuel2 i vs := by
  intro fuel1
  induction fuel1 with
  | zero =>
    intro fuel2 i vs h1 h2
    rw [manyGo_at_end 0 i vs (by omega), manyGo_at_end fuel2 i vs (by omega)]
  | succ fuel1 ih =>
    intro fuel2 i vs h1 h2
    rcases Nat.lt_or_ge i text.length with hi | hi
    · cases fuel2 with
      | zero => omega
      | succ fuel2 =>
        simp only [manyGo]
        rw [if_pos hi, if_pos hi]
        by_cases hs : (p text i).status = .success
        · rw [if_pos hs, if_pos hs]
          by_cases hz : (p text i).index = i
          · rw [if_pos hz, if_pos hz]
          · rw [if_neg hz, if_neg hz]
            by_cases hadv : i < (p text i).index
            · rw [if_pos hadv, if_pos hadv]
              exact ih fuel2 (p text i).index (vs ++ [(p text i).value])
                (by omega) (by omega)
            · rw [if_neg hadv, if_neg hadv]
        · rw [if_neg hs, if_neg hs]
    · rw [manyGo_at_end _ i vs hi, manyGo_at_end _ i vs hi]

/-- `many` traced along its chain of visited states. -/
theorem many_eq_manyGo_of_visits {p : ParserT} {text : Str} {start : Nat} :
    ∀ {i : Nat} {vs : List Value}, ManyVisits p text start i vs →
      many p text start = manyGo p text (text.length + 1 - i) i vs := by
  intro i vs h
  induction h with
  | init => rfl
  | @step i vs h hlen hs hadv ih =>
    rw [ih]
    have hrem : text.length + 1 - i = (text.length - i) + 1 := by omega
    rw [hrem]
    simp only [manyGo]
    rw [if_pos hlen, if_pos hs, if_neg (by omega), if_pos hadv]
    exact manyGo_fuel _ _ _ _ (by omega) (by omega)

/-- Any failure of the `many` loop comes from the zero-width guard at some visited
state, and is `Failure(index, "")`. -/
theorem manyGo_failure_reason {p : ParserT} {text : Str} {start : Nat} :
    ∀ (fuel : Nat) {i : Nat} {vs : List Value}, ManyVisits p text start i vs →
      (manyGo p text fuel i vs).status = .failure →
      ∃ j, (∃ ws, ManyVisits p text start j ws) ∧ j < text.length ∧
        (p text j).status = .success ∧ (p text j).index = j ∧
        manyGo p text fuel i vs = ⟨.failure, j, .empty, [[]]⟩ := by
  intro fuel
  induction fuel with
  | zero =>
    intro i vs _ hst
    exact absurd hst (by simp [manyGo, ParseResult.Success])
  | succ fuel ih =>
    intro i vs hv hst
    rcases Nat.lt_or_ge i text.length with hi | hi
    · simp only [manyGo] at hst ⊢
      rw [if_pos hi] at hst ⊢
      by_cases hs : (p text i).status = .success
      · rw [if_pos hs] at hst ⊢
        by_cases hz : (p text i).index = i
        · rw [if_pos hz] at hst ⊢
          exact ⟨i, ⟨vs, hv⟩, hi, hs, hz, by rw [hz]; rfl⟩
        · rw [if_neg hz] at hst ⊢
          by_cases hadv : i < (p text i).index
          · rw [if_pos hadv] at hst ⊢
            exact ih (hv.step hi hs hadv) hst
          · rw [if_neg hadv] at hst
            exact absurd hst (by simp [ParseResult.Success])
      · rw [if_neg hs] at hst
        exact absurd hst (by simp [ParseResult.Success])
    · rw [manyGo_at_end _ i vs hi] at hst
      exact absurd hst (by simp [ParseResult.Success])

/-- C7: if during `many(child).parse(text, start)` some invocation of the child at a
visited offset `i` succeeds without advancing (a zero-width success), `many` returns
`Failure(i, "")` — a Failure at `i` whose expectations are the one-element list
containing the empty string; this guard is the only way `many` returns a Failure
(second conjunct); and a child failure instead terminates the loop with a Success
carrying the values collected so far (third conjunct). -/
theorem many_guard_spec (p : ParserT) (text : Str) (start : Nat) :
    (∀ (i : Nat) (vs : List Value), ManyVisits p text start i vs → i < text.length →
      (p text i).status = .success → (p text i).index = i →
      many p text start = ⟨.failure, i, .empty, [[]]⟩)
    ∧ ((many p text start).status = .failure →
      ∃ j, (∃ ws, ManyVisits p text start j ws) ∧ j < text.length ∧
        (p text j).status = .success ∧ (p text j).index = j ∧
        many p text start = ⟨.failure, j, .empty, [[]]⟩)
    ∧ (∀ (i : Nat) (vs : List Value), ManyVisits p text start i vs → i < text.length →
      (p text i).status = .failure →
      many p text start = ParseResult.Success i (.list vs)) := by
  refine ⟨?_, ?_, ?_⟩
  · intro i vs hv hlen hs hz
    rw [many_eq_manyGo_of_visits hv]
    have hrem : text.length + 1 - i = (text.length - i) + 1 := by omega
    rw [hrem]
    simp only [manyGo]
    rw [if_pos hlen, if_pos hs, if_pos hz, hz]
    rfl
  · intro hst
    exact manyGo_failure_reason (text.length + 1 - start) ManyVisits.init hst
  · intro i vs hv hlen hfail
    rw [many_eq_manyGo_of_visits hv]
    have hrem : text.length + 1 - i = (text.length - i) + 1 := by omega
    rw [hrem]
    simp only [manyGo]
    rw [if_pos hlen, if_neg (by rw [hfail]; simp)]

/-- Witness for C7: `many(optional_whitespaces)` on `"a"` hits the guard at offset 0
(the child succeeds there without consuming) and fails with the single empty-string
expectation; `many(literal("b"))` on `"a"` sees its child fail at once and succeeds
with the empty collected list. -/
theorem many_guard_spec_witness :
    many optional_whitespaces ['a'] 0 = ⟨.failure, 0, .empty, [[]]⟩ ∧
    many (string ['b'] true) ['a'] 0 = ParseResult.Success 0 (.list []) :=
  ⟨(many_guard_spec optional_whitespaces ['a'] 0).1 0 [] .init (by decide) rfl rfl,
   (many_guard_spec (string ['b'] true) ['a'] 0).2.2 0 [] .init (by decide) rfl⟩

/-! ## C8: `times(n, n)` vs `times(n)`, and `at_least(0)` vs `many` -/

/-- A child that always succeeds at `i` without advancing makes the `times` loop
spin through all of its remaining iterations, collecting one copy per iteration. -/
theorem timesGo_const {p : ParserT} {text : Str} {i : Nat}
    (hs : (p text i).status = .success) (hz : (p text i).index = i) (mn : Nat) :
    ∀ (rem cnt : Nat) (vs : List Value),
      timesGo p text mn rem cnt i vs =
        ParseResult.Success i (.list (vs ++ List.replicate rem (p text i).value)) := by
  intro rem
  induction rem with
  | zero =>
    intro cnt vs
    simp [timesGo]
  | succ rem ih =>
    intro cnt vs
    simp only [timesGo]
    rw [if_pos hs, hz, ih (cnt + 1) (vs ++ [(p text i).value])]
    rw [List.replicate_succ, List.append_assoc]
    rfl

/-- C8 counterexample: with child `eof` on the empty text at start 0, `many` never
enters its loop (no invocation happens and the zero-width guard never fires — the
result is a Success), while `at_least(0) = times(0, 2^32 - 1)` invokes `eof`
`2^32 - 1` times — each a zero-width success — and returns all the collected null
values, so the two results differ although the claimed exception does not apply. -/
theorem atLeast0_many_counterexample :
    (many eof [] 0).status = .success ∧
    many eof [] 0 ≠ atLeast eof 0 [] 0 := by
  refine ⟨rfl, ?_⟩
  intro hcontra
  have h1 : many eof ([] : Str) 0 = ParseResult.Success 0 (.list []) := rfl
  have h2 : atLeast eof 0 ([] : Str) 0 =
      ParseResult.Success 0 (.list (List.replicate (2 ^ 32 - 1) .null)) := by
    show timesGo eof [] 0 (2 ^ 32 - 1) 0 0 [] = _
    rw [@timesGo_const eof [] 0 rfl rfl 0 (2 ^ 32 - 1) 0 []]
    rfl
  rw [h1, h2] at hcontra
  have hv := congrArg ParseResult.value hcontra
  simp only [ParseResult.Success, Value.list.injEq] at hv
  have hlen := congrArg List.length hv
  rw [List.length_nil, List.length_replicate] at hlen
  norm_num at hlen

/-- The `times(0, rem)` loop coincides with the `many` loop whenever the child is
bounded, never succeeds without advancing, the remaining iteration budget exceeds
the remaining text, and the `many` fuel exceeds the remaining text. -/
theorem timesGo_eq_manyGo {p : ParserT} {text : Str} (hb : Bounded p)
    (hadv : ∀ j, j ≤ text.length → (p text j).status = .success → j < (p text j).index) :
    ∀ (rem i cnt fuel : Nat) (vs : List Value),
      i ≤ text.length → text.length - i < rem → text.length < fuel + i →
      timesGo p text 0 rem cnt i vs = manyGo p text fuel i vs := by
  intro rem
  induction rem with
  | zero => intro i cnt fuel vs _ h2 _; omega
  | succ rem ih =>
    intro i cnt fuel vs hi h2 h3
    rcases Nat.lt_or_ge i text.length with hlt | hge
    · have hfuel : ∃ f, fuel = f + 1 := ⟨fuel - 1, by omega⟩
      obtain ⟨f, rfl⟩ := hfuel
      simp only [timesGo, manyGo]
      rw [if_pos hlt]
      by_cases hs : (p text i).status = .success
      · have hidx := hadv i hi hs
        have hbnd := hb text i hi
        rw [if_pos hs, if_pos hs, if_neg (by omega), if_pos hidx]
        exact ih (p text i).index (cnt + 1) f (vs ++ [(p text i).value])
          hbnd.2 (by omega) (by omega)
      · rw [if_neg hs, if_neg hs, if_neg (by omega)]
    · have hieq : (p text i).status = .failure := by
        rcases hst : (p text i).status with _ | _
        · have := hadv i hi hst
          have := hb text i hi
          omega
        · rfl
      simp only [timesGo]
      rw [if_neg (by rw [hieq]; simp), if_neg (by omega),
        manyGo_at_end fuel i vs (by omega)]

/-- C8 amended: `times(n, n)` parses every `(text, start)` identically to
`times(n)`; and `at_least(0)` parses `(text, start)` identically to `many` whenever
the text beyond `start` is shorter than `2^32 - 1` and no invocation of the child at
any offset of the text succeeds without advancing the index — when some invocation
does (where `many`'s guard fires, or at end of input where `many` never invokes the
child but `at_least(0)` does, zero-width), the two can differ, as
`atLeast0_many_counterexample` shows. -/
theorem timesN_atLeast0_amended :
    (∀ (p : ParserT) (n : Nat) (text : Str) (start : Nat),
      timesN p n text start = times p n n text start)
    ∧ (∀ (p : ParserT) (text : Str) (start : Nat), Bounded p → start ≤ text.length →
      text.length - start < 2 ^ 32 - 1 →
      (∀ j, j ≤ text.length → (p text j).status = .success → j < (p text j).index) →
      atLeast p 0 text start = many p text start) := by
  constructor
  · intro p n text start
    rfl
  · intro p text start hb hs hlen hadv
    show timesGo p text 0 (2 ^ 32 - 1) 0 start [] =
      manyGo p text (text.length + 1 - start) start []
    exact timesGo_eq_manyGo hb hadv (2 ^ 32 - 1) start 0 (text.length + 1 - start) []
      hs hlen (by omega)

/-- Witness for C8 (amended): `times(2, 2)` equals `times(2)` on a concrete input,
and `at_least(0)` of `literal("a")` equals `many(literal("a"))` on `"ab"`, where
every successful child invocation consumes one character. -/
theorem timesN_atLeast0_amended_witness :
    timesN (string ['a'] true) 2 ['a', 'b'] 0 =
      times (string ['a'] true) 2 2 ['a', 'b'] 0 ∧
    atLeast (string ['a'] true) 0 ['a', 'b'] 0 = many (string ['a'] true) ['a', 'b'] 0 :=
  ⟨timesN_atLeast0_amended.1 (string ['a'] true) 2 ['a', 'b'] 0,
   timesN_atLeast0_amended.2 (string ['a'] true) ['a', 'b'] 0
     (bounded_string ['a'] true) (by decide) (by norm_num)
     (by
       intro j h1 h2
       have h1' : j ≤ 2 := h1
       interval_cases j <;> revert h2 <;> decide)⟩

end LLParser
